import Mathlib

/-!
Verification of the squishRS deduplicating archive engine.

The Rust sources are shallowly embedded: byte buffers are `List Nat`
(each element one byte value), the xxh3 128-bit digest is a `Nat`, and the
external collaborators (xxhash and the zstd bulk codec) are a `Codec`
parameter, exactly as the spec treats them (pure functions, compression
fallible, decompression bounded by a maximum expected size).  Stateful Rust
code is embedded as explicit state passing; the concurrent pieces are
embedded as folds over an arbitrary serialization order, which is justified
because the one shared mutable structure (the DashMap behind `ChunkStore`)
is touched through its atomic `entry` API, so every concurrent execution is
equivalent to some interleaving order of whole `insert` calls.
-/

namespace Squish

/-- CHUNK_SIZE from src/util/chunk.rs: `2048 * 1024` bytes (2 MiB). -/
def CHUNK_SIZE : Nat := 2048 * 1024

/-- EXPECTED_MAX_CHUNK_SIZE from src/archive/reader.rs: `10 * 1024 * 1024`. -/
def EXPECTED_MAX_CHUNK_SIZE : Nat := 10 * 1024 * 1024

/-- Error values of the engine (`AppError` variants as used at the call
sites embedded here): `Compression` from `ChunkStore::insert`,
`ReaderError` wrapping a failed `zstd` decompression in `read_chunks`, and
`MissingChunk` carrying the offending file's relative path. -/
inductive AppError where
  | Compression : AppError
  | ReaderError : AppError
  | MissingChunk : String → AppError
deriving DecidableEq, Repr

/-- External collaborators of the engine: `hash` is `xxh3_128`
(`hash_chunk`), `compress` is `zstd::bulk::compress` at the fixed level
(`none` models an `Err` return), and `decompress` is
`zstd::bulk::decompress` with its maximum-expected-size argument (`none`
models an `Err`, in particular when the decoded size would exceed the
bound).  The engine calls them as pure functions. -/
structure Codec where
  hash : List Nat → Nat
  compress : List Nat → Option (List Nat)
  decompress : List Nat → Nat → Option (List Nat)

/-- The `primary_store` of `ChunkStore` (a `DashMap<ChunkHash, ()>`):
modelled as the list of digests present, in insertion order. -/
abbrev ChunkStore := List Nat

/-- Return value of `ChunkStore::insert` (`InsertReturn` in
src/util/chunk.rs): the digest, and the compressed payload for a
first-sight insertion (`none` for a duplicate). -/
structure InsertReturn where
  hash : Nat
  compressed_data : Option (List Nat)
deriving DecidableEq, Repr

/-- ChunkStore::insert (src/util/chunk.rs lines 80-100): hash the chunk,
atomically test the digest's membership; occupied entries return the
digest with no payload, vacant entries compress first (propagating a
compression error before anything is inserted) and only then insert the
digest.  Returns the store after the call together with the call's
result. -/
def ChunkStore.insert (C : Codec) (s : ChunkStore) (chunk : List Nat) :
    ChunkStore × Except AppError InsertReturn :=
  let h := C.hash chunk
  if h ∈ s then
    (s, .ok ⟨h, none⟩)
  else
    match C.compress chunk with
    | some compressed => (s ++ [h], .ok ⟨h, some compressed⟩)
    | none => (s, .error .Compression)

/-- ChunkStore::len: the count of unique digests in the primary store. -/
def ChunkStore.len (s : ChunkStore) : Nat := s.length

/-- A sequence of `ChunkStore::insert` calls executed in the given order
(one chunk per call), returning the final store and each call's result in
order.  Because each `insert` touches the shared map through one atomic
`entry` operation, every concurrent execution of the real code is
equivalent to such a serialization. -/
def runInserts (C : Codec) (s : ChunkStore) :
    List (List Nat) → ChunkStore × List (Except AppError InsertReturn)
  | [] => (s, [])
  | chunk :: rest =>
    ((runInserts C (ChunkStore.insert C s chunk).1 rest).1,
      (ChunkStore.insert C s chunk).2 ::
        (runInserts C (ChunkStore.insert C s chunk).1 rest).2)

/-- Whether an `insert` result is the winner for digest `d`: it returned
`Ok` with that digest and with a compressed payload (first sight). -/
def winsFor (d : Nat) : Except AppError InsertReturn → Bool
  | .ok r => r.hash == d && r.compressed_data.isSome
  | .error _ => false

/-- The read loop of `ArchiveWriter::process_file`: successive windows of
at most `CHUNK_SIZE` bytes are read until a read returns 0 bytes, so a
file's content is split into maximal `CHUNK_SIZE` windows with a final,
possibly short, window. -/
def chunksOf (content : List Nat) : List (List Nat) :=
  if content = [] then []
  else content.take CHUNK_SIZE :: chunksOf (content.drop CHUNK_SIZE)
termination_by content.length
decreasing_by
  have hc : content ≠ [] := by assumption
  have h1 : 0 < content.length := List.length_pos.mpr hc
  have h2 : 0 < CHUNK_SIZE := by decide
  simp only [List.length_drop]
  omega

/-- A message on the producer-to-writer channel (`ChunkMessage` in
src/fsutil/writer.rs): the digest, the compressed payload, and the value
the splitter put in the message's `original_size` field. -/
structure ChunkMessage where
  hash : Nat
  compressed_data : List Nat
  original_size : Nat
deriving DecidableEq, Repr

/-- An input file as handed to `process_file`, already reduced to its
relative path (the result of `strip_prefix` against the input root) and
its content bytes. -/
structure InputFile where
  path : String
  content : List Nat
deriving DecidableEq, Repr

/-- The per-file metadata `process_file` returns to `pack` (the
`PackedResult` triple): relative path, original size, and the file's
digest sequence in read order. -/
structure FileMeta where
  path : String
  orig_size : Nat
  chunk_hashes : List Nat
deriving DecidableEq, Repr

/-- Body of the `process_file` read loop over the file's windows: each
window is inserted into the shared store; a first-sight insertion emits a
`ChunkMessage` whose `original_size` field is `chunk_buf.len()` — the
length of the reused read buffer, which is always `CHUNK_SIZE` — and every
window contributes its digest to the file's sequence.  Returns the final
store, the emitted messages in order, and the digest sequence. -/
def processFileChunks (C : Codec) (s : ChunkStore) :
    List (List Nat) → Except AppError (ChunkStore × List ChunkMessage × List Nat)
  | [] => .ok (s, [], [])
  | chunk :: rest =>
    match (ChunkStore.insert C s chunk).2 with
    | .error e => .error e
    | .ok r =>
      match processFileChunks C (ChunkStore.insert C s chunk).1 rest with
      | .error e => .error e
      | .ok (s', msgs, hs) =>
        .ok (s', (match r.compressed_data with
                  | some compressed => ⟨r.hash, compressed, CHUNK_SIZE⟩ :: msgs
                  | none => msgs), r.hash :: hs)

/-- ArchiveWriter::process_file (src/archive/writer.rs lines 226-268):
split the file into `CHUNK_SIZE` windows, run the insert loop, and return
the file's metadata triple. -/
def process_file (C : Codec) (s : ChunkStore) (f : InputFile) :
    Except AppError (ChunkStore × List ChunkMessage × FileMeta) :=
  match processFileChunks C s (chunksOf f.content) with
  | .ok (s', msgs, hs) => .ok (s', msgs, ⟨f.path, f.content.length, hs⟩)
  | .error e => .error e

/-- The `pack` loop over the input files, serialized in list order (one
admissible schedule of the rayon workers; the store and the multiset of
messages are schedule-independent).  Accumulates the shared store, the
messages the writer thread receives, and the per-file metadata. -/
def packLoop (C : Codec) (s : ChunkStore) :
    List InputFile → Except AppError (ChunkStore × List ChunkMessage × List FileMeta)
  | [] => .ok (s, [], [])
  | f :: rest =>
    match process_file C s f with
    | .error e => .error e
    | .ok (s', msgs, meta) =>
      match packLoop C s' rest with
      | .error e => .error e
      | .ok (s'', msgs', metas) => .ok (s'', msgs ++ msgs', meta :: metas)

/-- The archive as assembled by `ArchiveWriter::pack` and re-read by
`ArchiveReader`, at record level: the patched unique-chunk count, the
chunk table (one record per message the writer thread received, in the
order written), and the file table. -/
structure Archive where
  chunkCount : Nat
  chunkTable : List ChunkMessage
  fileTable : List FileMeta
deriving DecidableEq, Repr

/-- ArchiveWriter::pack (src/archive/writer.rs lines 148-192): process
every file through the shared store, join the writer thread, patch the
chunk-count placeholder with `ChunkStore::len`, and append the file
metadata table. -/
def pack (C : Codec) (files : List InputFile) : Except AppError Archive :=
  match packLoop C [] files with
  | .ok (s, msgs, metas) => .ok ⟨ChunkStore.len s, msgs, metas⟩
  | .error e => .error e

/-- Little-endian byte encoding of `n` in `width` bytes (`to_le_bytes`). -/
def bytesLE : Nat → Nat → List Nat
  | 0, _ => []
  | width + 1, n => n % 256 :: bytesLE width (n / 256)

/-- writer_thread (src/fsutil/writer.rs lines 17-39): for each message,
in order received, write the 16-byte digest, the 8-byte little-endian
original length taken from the message's `original_size` field, the
8-byte little-endian compressed length, and the compressed bytes. -/
def writer_thread : List ChunkMessage → List Nat
  | [] => []
  | m :: rest =>
    bytesLE 16 m.hash ++ bytesLE 8 m.original_size ++
      bytesLE 8 m.compressed_data.length ++ m.compressed_data ++ writer_thread rest

/-- The in-memory chunk map built by `read_chunks`, keyed by digest. -/
abbrev ChunkMap := Nat → Option (List Nat)

/-- Loop of ArchiveReader::read_chunks (src/archive/reader.rs lines
261-314): each record's original size is read and discarded
(`let _orig_size = ...`), the compressed bytes are decompressed under the
`EXPECTED_MAX_CHUNK_SIZE` ceiling, and the result is inserted into the
map (a later record with the same digest would overwrite). -/
def read_chunksLoop (C : Codec) (mp : ChunkMap) :
    List ChunkMessage → Except AppError ChunkMap
  | [] => .ok mp
  | m :: rest =>
    match C.decompress m.compressed_data EXPECTED_MAX_CHUNK_SIZE with
    | some d => read_chunksLoop C (fun h => if h = m.hash then some d else mp h) rest
    | none => .error .ReaderError

/-- ArchiveReader::read_chunks: decompress the whole chunk table into an
in-memory map from digest to decompressed bytes. -/
def read_chunks (C : Codec) (table : List ChunkMessage) : Except AppError ChunkMap :=
  read_chunksLoop C (fun _ => none) table

/-- Per-file reconstruction loop of `rebuild_files` (src/archive/reader.rs
lines 380-410): concatenate the chunk map's bytes for each recorded digest
in order; a digest absent from the map aborts the file with
`MissingChunk` naming the file's relative path. -/
def rebuildFileContent (mp : ChunkMap) (path : String) :
    List Nat → Except AppError (List Nat)
  | [] => .ok []
  | h :: rest =>
    match mp h with
    | some d =>
      match rebuildFileContent mp path rest with
      | .ok tail => .ok (d ++ tail)
      | .error e => .error e
    | none => .error (.MissingChunk path)

/-- ArchiveReader::rebuild_files over the parsed file table, serialized in
list order (one admissible schedule of the parallel `try_for_each`):
rebuild every file's content, failing if any file fails. -/
def rebuild_files (mp : ChunkMap) :
    List FileMeta → Except AppError (List (String × List Nat))
  | [] => .ok []
  | e :: rest =>
    match rebuildFileContent mp e.path e.chunk_hashes with
    | .ok c =>
      match rebuild_files mp rest with
      | .ok tail => .ok ((e.path, c) :: tail)
      | .error err => .error err
    | .error err => .error err

/-- ArchiveReader::unpack (src/archive/reader.rs lines 234-246): build the
decompressed chunk map, then rebuild every file table entry from it. -/
def unpack (C : Codec) (A : Archive) : Except AppError (List (String × List Nat)) :=
  match read_chunks C A.chunkTable with
  | .ok mp => rebuild_files mp A.fileTable
  | .error e => .error e

/-- The summary `ArchiveReader::get_summary` returns.  The reader's `f64`
`reduction_percentage` is embedded as an exact rational. -/
structure ArchiveSummary where
  unique_chunks : Nat
  total_original_size : Nat
  archive_size : Nat
  reduction_percentage : ℚ
  files : List (String × Nat)
deriving DecidableEq, Repr

/-- The `total_orig_size += orig_size` accumulation of `get_summary`, a
`u64` addition (wrapping modulo `2 ^ 64`). -/
def sumOrigSizes (fileTable : List FileMeta) : Nat :=
  fileTable.foldl (fun acc e => (acc + e.orig_size) % 2 ^ 64) 0

/-- ArchiveReader::get_summary (src/archive/reader.rs lines 157-221):
walk the file table accumulating each entry's original size, then derive
the reduction percentage, guarded so that a zero total yields 0 rather
than a division by zero. -/
def get_summary (archive_size number_of_chunks : Nat)
    (fileTable : List FileMeta) : ArchiveSummary :=
  let total := sumOrigSizes fileTable
  { unique_chunks := number_of_chunks
    total_original_size := total
    archive_size := archive_size
    reduction_percentage :=
      if 0 < total then (1 - (archive_size : ℚ) / (total : ℚ)) * 100 else 0
    files := fileTable.map (fun e => (e.path, e.orig_size)) }

/-- The magic prefix of the archive header: the bytes of `"squish"`. -/
def PREFIX : List Nat := [115, 113, 117, 105, 115, 104]

/-- Whether a byte is a UTF-8 continuation byte. -/
def isCont (b : Nat) : Bool := 0x80 ≤ b && b ≤ 0xBF

mutual

/-- UTF-8 validity of a byte sequence, the check `std::str::from_utf8`
performs on the version bytes before they are compared: one-byte
sequences are ASCII, and each multi-byte leader is followed by its
continuation bytes, with the restricted first-continuation ranges that
exclude overlong encodings and surrogates. -/
def utf8Valid : List Nat → Bool
  | [] => true
  | b :: rest =>
    if b ≤ 0x7F then utf8Valid rest
    else if 0xC2 ≤ b && b ≤ 0xDF then utf8Tail1 rest
    else if 0xE0 ≤ b && b ≤ 0xEF then utf8Tail2 b rest
    else if 0xF0 ≤ b && b ≤ 0xF4 then utf8Tail3 b rest
    else false
termination_by l => l.length

/-- Continuation of a two-byte UTF-8 sequence. -/
def utf8Tail1 : List Nat → Bool
  | c1 :: r => isCont c1 && utf8Valid r
  | [] => false
termination_by l => l.length

/-- Continuation of a three-byte UTF-8 sequence with leader `b`. -/
def utf8Tail2 : Nat → List Nat → Bool
  | b, c1 :: c2 :: r =>
    (if b == 0xE0 then (0xA0 ≤ c1 && c1 ≤ 0xBF : Bool)
     else if b == 0xED then (0x80 ≤ c1 && c1 ≤ 0x9F : Bool)
     else isCont c1) && isCont c2 && utf8Valid r
  | _, _ => false
termination_by _ l => l.length

/-- Continuation of a four-byte UTF-8 sequence with leader `b`. -/
def utf8Tail3 : Nat → List Nat → Bool
  | b, c1 :: c2 :: c3 :: r =>
    (if b == 0xF0 then (0x90 ≤ c1 && c1 ≤ 0xBF : Bool)
     else if b == 0xF4 then (0x80 ≤ c1 && c1 ≤ 0x8F : Bool)
     else isCont c1) && isCont c2 && isCont c3 && utf8Valid r
  | _, _ => false
termination_by _ l => l.length

end

/-- Error outcomes of `verify_header` (the distinct `std::io::Error`
values it constructs, plus a failing `read_exact`). -/
inductive HeaderError where
  | UnexpectedEof : HeaderError
  | PrefixMismatch : HeaderError
  | InvalidUtf8 : HeaderError
  | InvalidVersionFormat : HeaderError
  | CurrentMalformed : HeaderError
  | IncompatibleVersion : HeaderError
deriving DecidableEq, Repr

/-- verify_header (src/util/header.rs lines 102-154), parameterized by the
running version's bytes (`VERSION`, an ASCII `major.minor.patch` string).
It reads exactly `PREFIX.length + currentVersion.length` bytes, checks the
magic prefix, decodes the version bytes as UTF-8, splits both version
strings on the dot, and compares only the major and minor components.
Splitting the decoded string on '.' and comparing components for string
equality is embedded as splitting the byte list on byte 46 and comparing
byte segments, which agrees because UTF-8 decoding is injective and byte
46 encodes '.' and occurs in no other code point's encoding. -/
def verify_header (currentVersion : List Nat) (input : List Nat) :
    Except HeaderError (List Nat) :=
  let expectedLen := PREFIX.length + currentVersion.length
  if input.length < expectedLen then .error .UnexpectedEof
  else
    let header := input.take expectedLen
    if PREFIX.isPrefixOf header then
      let versionBytes := header.drop PREFIX.length
      if utf8Valid versionBytes then
        let headerParts := versionBytes.splitOn 46
        if headerParts.length < 2 then .error .InvalidVersionFormat
        else
          let currentParts := currentVersion.splitOn 46
          if currentParts.length < 2 then .error .CurrentMalformed
          else
            if headerParts.getD 0 [] ≠ currentParts.getD 0 [] ∨
                headerParts.getD 1 [] ≠ currentParts.getD 1 [] then
              .error .IncompatibleVersion
            else .ok versionBytes
      else .error .InvalidUtf8
    else .error .PrefixMismatch

deriving instance DecidableEq for Except

/-- A concrete codec used to exercise the theorems on closed inputs: an
injective hash (the canonical encoding of byte lists into naturals), an
always-succeeding identity compressor, and the matching bounded
decompressor. -/
def idCodec : Codec :=
  ⟨fun b => Encodable.encode b, fun b => some b,
    fun cb n => if cb.length ≤ n then some cb else none⟩

/-- A concrete codec whose hash is the input's length, for closed inputs
where injectivity is not needed. -/
def lenCodec : Codec :=
  ⟨fun b => b.length, fun b => some b,
    fun cb n => if cb.length ≤ n then some cb else none⟩

/-- A concrete codec whose compressor always fails, exercising the error
path of `ChunkStore::insert`. -/
def failCodec : Codec :=
  ⟨fun b => b.length, fun _ => none, fun _ _ => none⟩

theorem chunksOf_eq (c : List Nat) :
    chunksOf c =
      if c = [] then [] else c.take CHUNK_SIZE :: chunksOf (c.drop CHUNK_SIZE) := by
  rw [chunksOf]

theorem chunksOf_nil : chunksOf [] = [] := by
  rw [chunksOf_eq]
  simp

theorem chunksOf_of_short {c : List Nat} (hne : c ≠ []) (hle : c.length ≤ CHUNK_SIZE) :
    chunksOf c = [c] := by
  rw [chunksOf_eq, if_neg hne, List.take_of_length_le hle, List.drop_eq_nil_of_le hle,
    chunksOf_nil]

theorem chunksOf_flatten (c : List Nat) : (chunksOf c).flatten = c := by
  induction c using chunksOf.induct with
  | case1 => simp [chunksOf_nil]
  | case2 c hne ih =>
    rw [chunksOf_eq, if_neg hne, List.flatten_cons, ih, List.take_append_drop]

theorem mem_chunksOf {c ck : List Nat} (h : ck ∈ chunksOf c) :
    ck ≠ [] ∧ ck.length ≤ CHUNK_SIZE := by
  induction c using chunksOf.induct with
  | case1 =>
    rw [chunksOf_nil] at h
    cases h
  | case2 c hne ih =>
    rw [chunksOf_eq, if_neg hne] at h
    rcases List.mem_cons.mp h with h1 | h2
    · subst h1
      refine ⟨?_, ?_⟩
      · have hpos : 0 < c.length := List.length_pos.mpr hne
        have : (c.take CHUNK_SIZE).length = min CHUNK_SIZE c.length := List.length_take _ _
        intro hnil
        rw [hnil] at this
        simp at this
        have h2 : 0 < CHUNK_SIZE := by decide
        omega
      · have : (c.take CHUNK_SIZE).length = min CHUNK_SIZE c.length := List.length_take _ _
        omega
    · exact ih h2

theorem insert_snd_mem (C : Codec) (s : ChunkStore) (chunk : List Nat)
    (h : C.hash chunk ∈ s) :
    ChunkStore.insert C s chunk = (s, .ok ⟨C.hash chunk, none⟩) := by
  simp [ChunkStore.insert, h]

theorem insert_snd_not_mem (C : Codec) (s : ChunkStore) (chunk : List Nat)
    (h : C.hash chunk ∉ s) {cb : List Nat} (hcb : C.compress chunk = some cb) :
    ChunkStore.insert C s chunk =
      (s ++ [C.hash chunk], .ok ⟨C.hash chunk, some cb⟩) := by
  simp [ChunkStore.insert, h, hcb]

theorem insert_snd_fail (C : Codec) (s : ChunkStore) (chunk : List Nat)
    (h : C.hash chunk ∉ s) (hcb : C.compress chunk = none) :
    ChunkStore.insert C s chunk = (s, .error .Compression) := by
  simp [ChunkStore.insert, h, hcb]

theorem runInserts_length (C : Codec) (s : ChunkStore) (cks : List (List Nat)) :
    ((runInserts C s cks).2).length = cks.length := by
  induction cks generalizing s with
  | nil => simp [runInserts]
  | cons ck rest ih => simp [runInserts, ih]

theorem runInserts_getElem (C : Codec) (hcomp : ∀ b, (C.compress b).isSome)
    (s : ChunkStore) (cks : List (List Nat)) (i : Nat) (hi : i < cks.length) :
    (runInserts C s cks).2[i]? =
      some (.ok ⟨C.hash cks[i],
        if C.hash cks[i] ∈ s ∨ C.hash cks[i] ∈ (cks.take i).map C.hash then none
        else C.compress cks[i]⟩) := by
  induction cks generalizing s i with
  | nil => simp at hi
  | cons ck rest ih =>
    match i with
    | 0 =>
      by_cases hmem : C.hash ck ∈ s
      · simp [runInserts, insert_snd_mem C s ck hmem, hmem]
      · obtain ⟨cb, hcb⟩ := Option.isSome_iff_exists.mp (hcomp ck)
        simp [runInserts, insert_snd_not_mem C s ck hmem hcb, hmem, hcb]
    | i + 1 =>
      have hi' : i < rest.length := by simpa using hi
      by_cases hmem : C.hash ck ∈ s
      · have step :
            (runInserts C s (ck :: rest)).2[i + 1]? = (runInserts C s rest).2[i]? := by
          simp [runInserts, insert_snd_mem C s ck hmem]
        rw [step, ih s i hi']
        have hiff :
            (C.hash rest[i] ∈ s ∨ C.hash rest[i] ∈ (rest.take i).map C.hash) ↔
              (C.hash ((ck :: rest)[i + 1]) ∈ s ∨
                C.hash ((ck :: rest)[i + 1]) ∈ (((ck :: rest)).take (i + 1)).map C.hash) := by
          simp only [List.getElem_cons_succ, List.take_succ_cons, List.map_cons,
            List.mem_cons]
          constructor
          · rintro (h1 | h2)
            · exact Or.inl h1
            · exact Or.inr (Or.inr h2)
          · rintro (h1 | h2 | h3)
            · exact Or.inl h1
            · rw [h2]
              exact Or.inl hmem
            · exact Or.inr h3
        rw [if_congr hiff rfl rfl]
        simp
      · obtain ⟨cb, hcb⟩ := Option.isSome_iff_exists.mp (hcomp ck)
        have step :
            (runInserts C s (ck :: rest)).2[i + 1]? =
              (runInserts C (s ++ [C.hash ck]) rest).2[i]? := by
          simp [runInserts, insert_snd_not_mem C s ck hmem hcb]
        rw [step, ih (s ++ [C.hash ck]) i hi']
        have hiff :
            (C.hash rest[i] ∈ s ++ [C.hash ck] ∨
                C.hash rest[i] ∈ (rest.take i).map C.hash) ↔
              (C.hash ((ck :: rest)[i + 1]) ∈ s ∨
                C.hash ((ck :: rest)[i + 1]) ∈ (((ck :: rest)).take (i + 1)).map C.hash) := by
          simp only [List.getElem_cons_succ, List.take_succ_cons, List.map_cons,
            List.mem_cons, List.mem_append, List.not_mem_nil, or_false]
          constructor
          · rintro (⟨h1 | h1⟩ | h2)
            · exact Or.inl h1
            · exact Or.inr (Or.inl h1)
            · exact Or.inr (Or.inr h2)
          · rintro (h1 | h2 | h3)
            · exact Or.inl (Or.inl h1)
            · exact Or.inl (Or.inr h2)
            · exact Or.inr h3
        rw [if_congr hiff rfl rfl]
        simp

theorem countP_winsFor_of_mem (C : Codec) (s0 : ChunkStore) (d : Nat)
    (hd : d ∈ s0) (cks : List (List Nat)) :
    ((runInserts C s0 cks).2.countP (winsFor d)) = 0 := by
  induction cks generalizing s0 with
  | nil => simp [runInserts]
  | cons ck rest ih =>
    by_cases hmem : C.hash ck ∈ s0
    · rw [show (runInserts C s0 (ck :: rest)).2 =
          (ChunkStore.insert C s0 ck).2 :: (runInserts C (ChunkStore.insert C s0 ck).1 rest).2
        from rfl]
      rw [insert_snd_mem C s0 ck hmem, List.countP_cons]
      simp [winsFor, ih s0 hd]
    · cases hcb : C.compress ck with
      | some cb =>
        rw [show (runInserts C s0 (ck :: rest)).2 =
            (ChunkStore.insert C s0 ck).2 ::
              (runInserts C (ChunkStore.insert C s0 ck).1 rest).2 from rfl]
        rw [insert_snd_not_mem C s0 ck hmem hcb, List.countP_cons]
        have hne : C.hash ck ≠ d := by
          intro h
          exact hmem (h ▸ hd)
        have hd' : d ∈ s0 ++ [C.hash ck] := List.mem_append.mpr (Or.inl hd)
        simp [winsFor, ih (s0 ++ [C.hash ck]) hd', hne]
      | none =>
        rw [show (runInserts C s0 (ck :: rest)).2 =
            (ChunkStore.insert C s0 ck).2 ::
              (runInserts C (ChunkStore.insert C s0 ck).1 rest).2 from rfl]
        rw [insert_snd_fail C s0 ck hmem hcb, List.countP_cons]
        simp [winsFor, ih s0 hd]

theorem countP_winsFor (C : Codec) (hcomp : ∀ b, (C.compress b).isSome)
    (s0 : ChunkStore) (d : Nat) (hd : d ∉ s0) (cks : List (List Nat)) :
    ((runInserts C s0 cks).2.countP (winsFor d)) =
      if d ∈ cks.map C.hash then 1 else 0 := by
  induction cks generalizing s0 with
  | nil => simp [runInserts]
  | cons ck rest ih =>
    rw [show (runInserts C s0 (ck :: rest)).2 =
        (ChunkStore.insert C s0 ck).2 ::
          (runInserts C (ChunkStore.insert C s0 ck).1 rest).2 from rfl]
    by_cases hmem : C.hash ck ∈ s0
    · have hne : C.hash ck ≠ d := by
        intro h
        exact hd (h ▸ hmem)
      rw [insert_snd_mem C s0 ck hmem, List.countP_cons]
      simp only [winsFor]
      rw [ih s0 hd]
      simp [hne, Ne.symm hne]
    · obtain ⟨cb, hcb⟩ := Option.isSome_iff_exists.mp (hcomp ck)
      rw [insert_snd_not_mem C s0 ck hmem hcb, List.countP_cons]
      by_cases heq : C.hash ck = d
      · subst heq
        have hd' : C.hash ck ∈ s0 ++ [C.hash ck] := by simp
        rw [countP_winsFor_of_mem C (s0 ++ [C.hash ck]) (C.hash ck) hd' rest]
        simp [winsFor]
      · have hd' : d ∉ s0 ++ [C.hash ck] := by
          simp only [List.mem_append, List.mem_singleton]
          rintro (h | h)
          · exact hd h
          · exact heq h.symm
        rw [ih (s0 ++ [C.hash ck]) hd']
        simp [winsFor, heq, Ne.symm heq]

theorem runInserts_replicate_ok (C : Codec) (hcomp : ∀ b, (C.compress b).isSome)
    (b : List Nat) (n : Nat) (s : ChunkStore) :
    ∀ r ∈ (runInserts C s (List.replicate n b)).2,
      ∃ ir, r = .ok ir ∧ ir.hash = C.hash b := by
  induction n generalizing s with
  | zero => simp [runInserts]
  | succ n ih =>
    intro r hr
    rw [List.replicate_succ] at hr
    rw [show (runInserts C s (b :: List.replicate n b)).2 =
        (ChunkStore.insert C s b).2 ::
          (runInserts C (ChunkStore.insert C s b).1 (List.replicate n b)).2 from rfl] at hr
    rcases List.mem_cons.mp hr with h1 | h2
    · by_cases hmem : C.hash b ∈ s
      · rw [insert_snd_mem C s b hmem] at h1
        exact ⟨⟨C.hash b, none⟩, h1, rfl⟩
      · obtain ⟨cb, hcb⟩ := Option.isSome_iff_exists.mp (hcomp b)
        rw [insert_snd_not_mem C s b hmem hcb] at h1
        exact ⟨⟨C.hash b, some cb⟩, h1, rfl⟩
    · exact ih (ChunkStore.insert C s b).1 r h2

theorem processFileChunks_spec (C : Codec) (hcomp : ∀ b, (C.compress b).isSome)
    (s : ChunkStore) (cks : List (List Nat)) :
    ∃ s' msgs hs, processFileChunks C s cks = .ok (s', msgs, hs) ∧
      hs = cks.map C.hash ∧
      s' = s ++ msgs.map ChunkMessage.hash ∧
      (∀ m ∈ msgs, ∃ ck ∈ cks,
        C.hash ck = m.hash ∧ C.compress ck = some m.compressed_data) ∧
      (∀ ck ∈ cks, C.hash ck ∈ s') ∧
      (∀ m ∈ msgs, m.hash ∉ s) ∧
      (msgs.map ChunkMessage.hash).Nodup := by
  induction cks generalizing s with
  | nil =>
    refine ⟨s, [], [], by simp [processFileChunks], by simp, by simp, ?_, ?_, ?_, by simp⟩ <;>
      simp
  | cons ck rest ih =>
    by_cases hmem : C.hash ck ∈ s
    · obtain ⟨s', msgs, hs, heq, hhs, hs', horig, hcov, hnotmem, hnd⟩ := ih s
      refine ⟨s', msgs, C.hash ck :: hs, ?_, ?_, hs', ?_, ?_, hnotmem, hnd⟩
      · simp only [processFileChunks, insert_snd_mem C s ck hmem, heq]
      · simp [hhs]
      · intro m hm
        obtain ⟨ck', hck', h1, h2⟩ := horig m hm
        exact ⟨ck', List.mem_cons_of_mem _ hck', h1, h2⟩
      · intro ck' hck'
        rcases List.mem_cons.mp hck' with h1 | h2
        · subst h1
          rw [hs']
          exact List.mem_append.mpr (Or.inl hmem)
        · exact hcov ck' h2
    · obtain ⟨cb, hcb⟩ := Option.isSome_iff_exists.mp (hcomp ck)
      obtain ⟨s', msgs, hs, heq, hhs, hs', horig, hcov, hnotmem, hnd⟩ := ih (s ++ [C.hash ck])
      refine ⟨s', ⟨C.hash ck, cb, CHUNK_SIZE⟩ :: msgs, C.hash ck :: hs, ?_, ?_, ?_, ?_, ?_,
        ?_, ?_⟩
      · simp only [processFileChunks, insert_snd_not_mem C s ck hmem hcb, heq]
      · simp [hhs]
      · rw [hs', List.map_cons, List.append_assoc]
        rfl
      · intro m hm
        rcases List.mem_cons.mp hm with h1 | h2
        · subst h1
          exact ⟨ck, List.mem_cons_self _ _, rfl, hcb⟩
        · obtain ⟨ck', hck', h1, h2⟩ := horig m h2
          exact ⟨ck', List.mem_cons_of_mem _ hck', h1, h2⟩
      · intro ck' hck'
        rcases List.mem_cons.mp hck' with h1 | h2
        · subst h1
          rw [hs']
          exact List.mem_append.mpr (Or.inl (by simp))
        · exact hcov ck' h2
      · intro m hm
        rcases List.mem_cons.mp hm with h1 | h2
        · subst h1
          exact hmem
        · intro hin
          exact hnotmem m h2 (List.mem_append.mpr (Or.inl hin))
      · rw [List.map_cons, List.nodup_cons]
        refine ⟨?_, hnd⟩
        intro hin
        obtain ⟨m, hm, hmh⟩ := List.mem_map.mp hin
        exact hnotmem m hm (List.mem_append.mpr (Or.inr (by simp [hmh])))

theorem packLoop_spec (C : Codec) (hcomp : ∀ b, (C.compress b).isSome)
    (s : ChunkStore) (files : List InputFile) :
    ∃ s' msgs metas, packLoop C s files = .ok (s', msgs, metas) ∧
      metas = files.map
        (fun f => FileMeta.mk f.path f.content.length ((chunksOf f.content).map C.hash)) ∧
      s' = s ++ msgs.map ChunkMessage.hash ∧
      (∀ m ∈ msgs, ∃ f ∈ files, ∃ ck ∈ chunksOf f.content,
        C.hash ck = m.hash ∧ C.compress ck = some m.compressed_data) ∧
      (∀ f ∈ files, ∀ ck ∈ chunksOf f.content, C.hash ck ∈ s') ∧
      (∀ m ∈ msgs, m.hash ∉ s) ∧
      (msgs.map ChunkMessage.hash).Nodup := by
  induction files generalizing s with
  | nil =>
    refine ⟨s, [], [], by simp [packLoop], by simp, by simp, ?_, ?_, ?_, by simp⟩ <;> simp
  | cons f rest ih =>
    obtain ⟨s1, msgs1, hs1, heq1, hhs1, heqs1, horig1, hcov1, hnotmem1, hnd1⟩ :=
      processFileChunks_spec C hcomp s (chunksOf f.content)
    obtain ⟨s', msgs2, metas, heq2, hmetas, heqs2, horig2, hcov2, hnotmem2, hnd2⟩ := ih s1
    refine ⟨s', msgs1 ++ msgs2, ⟨f.path, f.content.length, hs1⟩ :: metas, ?_, ?_, ?_, ?_,
      ?_, ?_, ?_⟩
    · simp only [packLoop, process_file, heq1, heq2]
    · simp [hmetas, hhs1]
    · rw [heqs2, heqs1, List.map_append, List.append_assoc]
    · intro m hm
      rcases List.mem_append.mp hm with h1 | h2
      · obtain ⟨ck, hck, ha, hb⟩ := horig1 m h1
        exact ⟨f, List.mem_cons_self _ _, ck, hck, ha, hb⟩
      · obtain ⟨f', hf', ck, hck, ha, hb⟩ := horig2 m h2
        exact ⟨f', List.mem_cons_of_mem _ hf', ck, hck, ha, hb⟩
    · intro f' hf' ck hck
      rcases List.mem_cons.mp hf' with h1 | h2
      · subst h1
        have : C.hash ck ∈ s1 := hcov1 ck hck
        rw [heqs2]
        exact List.mem_append.mpr (Or.inl this)
      · exact hcov2 f' h2 ck hck
    · intro m hm
      rcases List.mem_append.mp hm with h1 | h2
      · exact hnotmem1 m h1
      · intro hin
        have : m.hash ∉ s1 := hnotmem2 m h2
        rw [heqs1] at this
        exact this (List.mem_append.mpr (Or.inl hin))
    · rw [List.map_append, List.nodup_append]
      refine ⟨hnd1, hnd2, ?_⟩
      intro d hd1 hd2
      obtain ⟨m2, hm2, hm2h⟩ := List.mem_map.mp hd2
      have : m2.hash ∉ s1 := hnotmem2 m2 hm2
      rw [heqs1] at this
      exact this (List.mem_append.mpr (Or.inr (by rw [hm2h]; exact hd1)))

theorem read_chunksLoop_lookup (C : Codec) (msgs : List ChunkMessage)
    (hdec : ∀ m ∈ msgs, (C.decompress m.compressed_data EXPECTED_MAX_CHUNK_SIZE).isSome)
    (hnd : (msgs.map ChunkMessage.hash).Nodup) (mp0 : ChunkMap) :
    ∃ mp, read_chunksLoop C mp0 msgs = .ok mp ∧
      (∀ m ∈ msgs, mp m.hash = C.decompress m.compressed_data EXPECTED_MAX_CHUNK_SIZE) ∧
      (∀ h, h ∉ msgs.map ChunkMessage.hash → mp h = mp0 h) := by
  induction msgs generalizing mp0 with
  | nil => exact ⟨mp0, by simp [read_chunksLoop], by simp, fun h _ => rfl⟩
  | cons m rest ih =>
    obtain ⟨d, hd⟩ :=
      Option.isSome_iff_exists.mp (hdec m (List.mem_cons_self _ _))
    rw [List.map_cons, List.nodup_cons] at hnd
    obtain ⟨mp, hmp, hlook, hother⟩ :=
      ih (fun m' hm' => hdec m' (List.mem_cons_of_mem _ hm')) hnd.2
        (fun h => if h = m.hash then some d else mp0 h)
    refine ⟨mp, ?_, ?_, ?_⟩
    · simp only [read_chunksLoop, hd, hmp]
    · intro m' hm'
      rcases List.mem_cons.mp hm' with h1 | h2
      · subst h1
        rw [hother m'.hash hnd.1, if_pos rfl, hd]
      · exact hlook m' h2
    · intro h hh
      simp only [List.map_cons, List.mem_cons] at hh
      push_neg at hh
      rw [hother h hh.2, if_neg hh.1]

theorem rebuildFileContent_ok (C : Codec) (mp : ChunkMap) (p : String)
    (cks : List (List Nat)) (hmp : ∀ ck ∈ cks, mp (C.hash ck) = some ck) :
    rebuildFileContent mp p (cks.map C.hash) = .ok cks.flatten := by
  induction cks with
  | nil => simp [rebuildFileContent]
  | cons ck rest ih =>
    have h1 : mp (C.hash ck) = some ck := hmp ck (List.mem_cons_self _ _)
    have h2 := ih (fun ck' hck' => hmp ck' (List.mem_cons_of_mem _ hck'))
    simp only [List.map_cons, rebuildFileContent, h1, h2, List.flatten_cons]

theorem rebuild_files_ok (C : Codec) (mp : ChunkMap) (files : List InputFile)
    (hmp : ∀ f ∈ files, ∀ ck ∈ chunksOf f.content, mp (C.hash ck) = some ck) :
    rebuild_files mp (files.map
        (fun f => FileMeta.mk f.path f.content.length ((chunksOf f.content).map C.hash))) =
      .ok (files.map (fun f => (f.path, f.content))) := by
  induction files with
  | nil => simp [rebuild_files]
  | cons f rest ih =>
    have h1 : rebuildFileContent mp f.path ((chunksOf f.content).map C.hash) =
        .ok f.content := by
      rw [rebuildFileContent_ok C mp f.path (chunksOf f.content)
        (hmp f (List.mem_cons_self _ _)), chunksOf_flatten]
    have h2 := ih (fun f' hf' => hmp f' (List.mem_cons_of_mem _ hf'))
    simp only [List.map_cons, rebuild_files, h1, h2]

theorem nodup_mem_iff_singleton {l : List Nat} {a : Nat} (hnd : l.Nodup)
    (hmem : ∀ d, d ∈ l ↔ d = a) : l = [a] := by
  match l with
  | [] =>
    have := (hmem a).mpr rfl
    cases this
  | [x] =>
    have := (hmem x).mp (List.mem_cons_self _ _)
    rw [this]
  | x :: y :: t =>
    have hx := (hmem x).mp (List.mem_cons_self _ _)
    have hy := (hmem y).mp (List.mem_cons_of_mem _ (List.mem_cons_self _ _))
    rw [List.nodup_cons] at hnd
    exact absurd (by rw [hx, ← hy]; exact List.mem_cons_self _ _) hnd.1

/-- C1: packing any list of files (each given by its relative path and
content bytes) with `ArchiveWriter::pack` and unpacking the resulting
archive with `ArchiveReader::unpack` reproduces every file's contents
byte-for-byte at its relative path.  The hypotheses are the collaborator
contracts: the digest has no collisions on the inputs at hand, `zstd`
compression succeeds, and decompression inverts compression whenever the
original fits the size ceiling.  Empty files (no chunks) and files whose
length is an exact multiple of `CHUNK_SIZE` are instances of the
quantifier. -/
theorem pack_unpack_roundtrip (C : Codec)
    (hinj : Function.Injective C.hash)
    (hcomp : ∀ b, (C.compress b).isSome)
    (hdec : ∀ b cb, C.compress b = some cb → ∀ n, b.length ≤ n →
        C.decompress cb n = some b)
    (files : List InputFile) :
    ∃ A, pack C files = .ok A ∧
      unpack C A = .ok (files.map (fun f => (f.path, f.content))) := by
  obtain ⟨s', msgs, metas, heq, hmetas, heqs, horig, hcov, hnm, hnd⟩ :=
    packLoop_spec C hcomp [] files
  have hpack : pack C files = .ok ⟨ChunkStore.len s', msgs, metas⟩ := by
    simp only [pack, heq]
  have hdecompose :
      ∀ m ∈ msgs, (C.decompress m.compressed_data EXPECTED_MAX_CHUNK_SIZE).isSome := by
    intro m hm
    obtain ⟨f, hf, ck, hck, hh, hc⟩ := horig m hm
    have hlen : ck.length ≤ EXPECTED_MAX_CHUNK_SIZE :=
      le_trans (mem_chunksOf hck).2 (by decide)
    rw [hdec ck m.compressed_data hc EXPECTED_MAX_CHUNK_SIZE hlen]
    rfl
  obtain ⟨mp, hmp, hlook, hother⟩ := read_chunksLoop_lookup C msgs hdecompose hnd
    (fun _ => none)
  have hmpc : ∀ f ∈ files, ∀ ck ∈ chunksOf f.content, mp (C.hash ck) = some ck := by
    intro f hf ck hck
    have hin : C.hash ck ∈ msgs.map ChunkMessage.hash := by
      have hm := hcov f hf ck hck
      rw [heqs] at hm
      simpa using hm
    obtain ⟨m, hm, hmh⟩ := List.mem_map.mp hin
    obtain ⟨f', hf', ck', hck', hh', hc'⟩ := horig m hm
    have hlen' : ck'.length ≤ EXPECTED_MAX_CHUNK_SIZE :=
      le_trans (mem_chunksOf hck').2 (by decide)
    have hdm : C.decompress m.compressed_data EXPECTED_MAX_CHUNK_SIZE = some ck' :=
      hdec ck' _ hc' _ hlen'
    have hckeq : ck' = ck := hinj (by rw [hh', hmh])
    rw [← hmh, hlook m hm, hdm, hckeq]
  refine ⟨⟨ChunkStore.len s', msgs, metas⟩, hpack, ?_⟩
  show unpack C ⟨ChunkStore.len s', msgs, metas⟩ = _
  simp only [unpack, read_chunks, hmp]
  rw [hmetas]
  exact rebuild_files_ok C mp files hmpc

/-- Closed instance of C1: a two-file tree (one nonempty file, one empty
file) packs and unpacks to exactly its own contents. -/
theorem pack_unpack_roundtrip_witness :
    Function.Injective idCodec.hash ∧
    ∃ A, pack idCodec [⟨"a.txt", [104, 101, 108, 108, 111]⟩, ⟨"b.txt", []⟩] = .ok A ∧
      unpack idCodec A =
        .ok [("a.txt", [104, 101, 108, 108, 111]), ("b.txt", [])] := by
  have hdec : ∀ b cb, idCodec.compress b = some cb → ∀ n, b.length ≤ n →
      idCodec.decompress cb n = some b := by
    intro b cb hc n hn
    have hbc : b = cb := by
      simpa [idCodec] using hc
    subst hbc
    simp [idCodec, hn]
  have h := pack_unpack_roundtrip idCodec Encodable.encode_injective
    (fun b => rfl) hdec [⟨"a.txt", [104, 101, 108, 108, 111]⟩, ⟨"b.txt", []⟩]
  exact ⟨Encodable.encode_injective, by simpa using h⟩

/-- C2: under concurrent insertion of byte-identical content from `n`
callers, exactly one `insert` observes first sight (receives the
compressed payload) and every other call receives `None` — for every
serialization `order` of the calls.  Each call's access to the shared
`DashMap` is a single atomic `entry` check-and-set (the compression of the
winner happens while the vacant entry guard, and hence the shard lock, is
held), so every concurrent interleaving of the real code executes as some
such serialization. -/
theorem chunkStore_insert_race_exactly_once (C : Codec)
    (hcomp : ∀ b, (C.compress b).isSome) (b : List Nat) (n : Nat) (hn : 1 ≤ n)
    (order : List (List Nat)) (horder : order.Perm (List.replicate n b)) :
    ((runInserts C [] order).2.countP (winsFor (C.hash b))) = 1 ∧
    (runInserts C [] order).2.length = n ∧
    ∀ r ∈ (runInserts C [] order).2, ∃ ir, r = .ok ir ∧ ir.hash = C.hash b ∧
      (ir.compressed_data.isSome = true ↔ winsFor (C.hash b) r = true) := by
  have horder' : order = List.replicate n b := List.perm_replicate.mp horder
  subst horder'
  refine ⟨?_, ?_, ?_⟩
  · rw [countP_winsFor C hcomp [] (C.hash b) (by simp) _]
    have hm : C.hash b ∈ (List.replicate n b).map C.hash := by
      rw [List.map_replicate]
      exact List.mem_replicate.mpr ⟨by omega, rfl⟩
    rw [if_pos hm]
  · rw [runInserts_length]
    simp
  · intro r hr
    obtain ⟨ir, hir, hh⟩ := runInserts_replicate_ok C hcomp b n [] r hr
    subst hir
    exact ⟨ir, rfl, hh, by simp [winsFor, hh]⟩

/-- Closed instance of C2: three racing inserts of the same two bytes
produce exactly one compressed payload. -/
theorem chunkStore_insert_race_exactly_once_witness :
    ((runInserts lenCodec [] (List.replicate 3 [7, 7])).2.countP
        (winsFor (lenCodec.hash [7, 7]))) = 1 ∧
    (runInserts lenCodec [] (List.replicate 3 [7, 7])).2.length = 3 := by
  have h := chunkStore_insert_race_exactly_once lenCodec (fun b => rfl) [7, 7] 3
    (by decide) (List.replicate 3 [7, 7]) (List.Perm.refl _)
  exact ⟨h.1, h.2.1⟩

/-- C3: the sequential contract of `ChunkStore::insert` — a call whose
digest is already a member returns the digest with no payload and leaves
the store unchanged; a call whose digest is absent compresses and returns
the payload; and over any call sequence, each call's result carries the
digest of its bytes, with a payload exactly when no earlier call (nor the
initial store) already held that digest. -/
theorem chunkStore_insert_sequential_contract (C : Codec)
    (hcomp : ∀ b, (C.compress b).isSome) :
    (∀ s chunk, C.hash chunk ∈ s →
        ChunkStore.insert C s chunk = (s, .ok ⟨C.hash chunk, none⟩)) ∧
    (∀ s chunk, C.hash chunk ∉ s → ∃ cb, C.compress chunk = some cb ∧
        ChunkStore.insert C s chunk =
          (s ++ [C.hash chunk], .ok ⟨C.hash chunk, some cb⟩)) ∧
    (∀ cks : List (List Nat), ∀ i, ∀ hi : i < cks.length,
        (runInserts C [] cks).2[i]? =
          some (.ok ⟨C.hash (cks.get ⟨i, hi⟩),
            if C.hash (cks.get ⟨i, hi⟩) ∈ (cks.take i).map C.hash then none
            else C.compress (cks.get ⟨i, hi⟩)⟩)) := by
  refine ⟨?_, ?_, ?_⟩
  · intro s chunk h
    exact insert_snd_mem C s chunk h
  · intro s chunk h
    obtain ⟨cb, hcb⟩ := Option.isSome_iff_exists.mp (hcomp chunk)
    exact ⟨cb, hcb, insert_snd_not_mem C s chunk h hcb⟩
  · intro cks i hi
    have h := runInserts_getElem C hcomp [] cks i hi
    simpa using h

/-- Closed instance of C3: in the sequence of chunks with lengths 2, 3, 2,
the third call is a duplicate of the first and gets no payload. -/
theorem chunkStore_insert_sequential_contract_witness :
    (runInserts lenCodec [] [[7, 7], [9, 9, 9], [7, 7]]).2[2]? =
      some (.ok ⟨2, none⟩) := by
  have h := (chunkStore_insert_sequential_contract lenCodec (fun b => rfl)).2.2
    [[7, 7], [9, 9, 9], [7, 7]] 2 (by decide)
  rw [h]
  decide

/-- C4: after a successful pack, the chunk table holds each unique digest
exactly once, the patched `ChunkCount` is the `ChunkStore`'s final unique
count, and that count equals the number of chunk records written; in
particular, packing `n ≥ 1` byte-identical single-chunk files yields
exactly one chunk record. -/
theorem pack_chunk_table_invariant (C : Codec)
    (hcomp : ∀ b, (C.compress b).isSome) :
    (∀ files : List InputFile, ∃ s msgs metas,
      packLoop C [] files = .ok (s, msgs, metas) ∧
      pack C files = .ok ⟨ChunkStore.len s, msgs, metas⟩ ∧
      ChunkStore.len s = msgs.length ∧
      (msgs.map ChunkMessage.hash).Nodup ∧
      (∀ d, d ∈ msgs.map ChunkMessage.hash ↔
        ∃ f ∈ files, ∃ ck ∈ chunksOf f.content, C.hash ck = d)) ∧
    (∀ (p : String) (b : List Nat) (n : Nat), 1 ≤ n → b ≠ [] →
      b.length ≤ CHUNK_SIZE →
      ∃ A, pack C (List.replicate n ⟨p, b⟩) = .ok A ∧ A.chunkTable.length = 1) := by
  have main : ∀ files : List InputFile, ∃ s msgs metas,
      packLoop C [] files = .ok (s, msgs, metas) ∧
      pack C files = .ok ⟨ChunkStore.len s, msgs, metas⟩ ∧
      ChunkStore.len s = msgs.length ∧
      (msgs.map ChunkMessage.hash).Nodup ∧
      (∀ d, d ∈ msgs.map ChunkMessage.hash ↔
        ∃ f ∈ files, ∃ ck ∈ chunksOf f.content, C.hash ck = d) := by
    intro files
    obtain ⟨s, msgs, metas, heq, hmetas, heqs, horig, hcov, hnm, hnd⟩ :=
      packLoop_spec C hcomp [] files
    refine ⟨s, msgs, metas, heq, by simp only [pack, heq], ?_, hnd, ?_⟩
    · rw [heqs]
      simp [ChunkStore.len]
    · intro d
      constructor
      · intro hd
        obtain ⟨m, hm, hmh⟩ := List.mem_map.mp hd
        obtain ⟨f, hf, ck, hck, ha, _⟩ := horig m hm
        exact ⟨f, hf, ck, hck, by rw [ha, hmh]⟩
      · rintro ⟨f, hf, ck, hck, rfl⟩
        have := hcov f hf ck hck
        rw [heqs] at this
        simpa using this
  refine ⟨main, ?_⟩
  intro p b n hn hb hble
  obtain ⟨s, msgs, metas, heq, hpk, hlen, hnd, hiff⟩ := main (List.replicate n ⟨p, b⟩)
  refine ⟨⟨ChunkStore.len s, msgs, metas⟩, hpk, ?_⟩
  have hsingle : msgs.map ChunkMessage.hash = [C.hash b] := by
    refine nodup_mem_iff_singleton hnd ?_
    intro d
    rw [hiff d]
    constructor
    · rintro ⟨f, hf, ck, hck, rfl⟩
      have hfb : f = ⟨p, b⟩ := (List.mem_replicate.mp hf).2
      subst hfb
      rw [chunksOf_of_short hb hble] at hck
      rw [List.mem_singleton.mp hck]
    · rintro rfl
      refine ⟨⟨p, b⟩, List.mem_replicate.mpr ⟨by omega, rfl⟩, b, ?_, rfl⟩
      rw [chunksOf_of_short hb hble]
      exact List.mem_singleton.mpr rfl
  show msgs.length = 1
  have := congrArg List.length hsingle
  simpa using this

/-- Closed instance of C4: packing three identical two-byte files yields
a chunk table with exactly one record. -/
theorem pack_chunk_table_invariant_witness :
    ∃ A, pack lenCodec (List.replicate 3 ⟨"x", [7, 7]⟩) = .ok A ∧
      A.chunkTable.length = 1 := by
  exact (pack_chunk_table_invariant lenCodec (fun b => rfl)).2 "x" [7, 7] 3
    (by decide) (by decide) (by decide)

/-- C5 (divergence evidence): processing a five-byte file emits a pipeline
message whose `original_size` field is `CHUNK_SIZE` — the length of the
reused read buffer — not the 5 bytes actually read in the final window,
and the writer thread serializes exactly that wrong value into the chunk
record's 8-byte little-endian original-length field. -/
theorem process_file_original_size_is_buffer_length :
    process_file lenCodec [] ⟨"a.txt", [104, 101, 108, 108, 111]⟩ =
      .ok ([5], [⟨5, [104, 101, 108, 108, 111], CHUNK_SIZE⟩],
        ⟨"a.txt", 5, [5]⟩) ∧
    CHUNK_SIZE ≠ 5 ∧
    writer_thread [⟨5, [104, 101, 108, 108, 111], CHUNK_SIZE⟩] =
      bytesLE 16 5 ++ (bytesLE 8 CHUNK_SIZE ++ (bytesLE 8 5 ++
        [104, 101, 108, 108, 111])) ∧
    bytesLE 8 CHUNK_SIZE ≠ bytesLE 8 5 := by
  have hchunks : chunksOf [104, 101, 108, 108, 111] = [[104, 101, 108, 108, 111]] :=
    chunksOf_of_short (by decide) (by decide)
  refine ⟨?_, by decide, ?_, by decide⟩
  · simp only [process_file, hchunks]
    decide
  · decide

theorem utf8Valid_of_ascii {bs : List Nat} (h : ∀ b ∈ bs, b < 128) :
    utf8Valid bs = true := by
  induction bs with
  | nil => rw [utf8Valid]
  | cons b rest ih =>
    have hb : b ≤ 0x7F := by
      have := h b (List.mem_cons_self _ _)
      omega
    have htail := ih (fun x hx => h x (List.mem_cons_of_mem _ hx))
    rw [utf8Valid, if_pos hb]
    exact htail

/-- C6: `verify_header` never silently proceeds — a successful open means
the magic prefix matched and the version string's major and minor
components equal the running version's; conversely a corrupted prefix or a
differing major or minor component yields a format error, while an archive
whose version differs only in the patch component is accepted. -/
theorem verify_header_rejects_and_ignores_patch (cur : List Nat) :
    (∀ input r, verify_header cur input = .ok r →
        PREFIX.isPrefixOf input = true ∧
        r = (input.take (PREFIX.length + cur.length)).drop PREFIX.length ∧
        (r.splitOn 46).getD 0 [] = (cur.splitOn 46).getD 0 [] ∧
        (r.splitOn 46).getD 1 [] = (cur.splitOn 46).getD 1 []) ∧
    (∀ input, PREFIX.isPrefixOf input = false →
        ∃ e, verify_header cur input = .error e) ∧
    (∀ input,
        ((((input.take (PREFIX.length + cur.length)).drop PREFIX.length).splitOn 46).getD 0 []
            ≠ (cur.splitOn 46).getD 0 [] ∨
          (((input.take (PREFIX.length + cur.length)).drop PREFIX.length).splitOn 46).getD 1 []
            ≠ (cur.splitOn 46).getD 1 []) →
        ∃ e, verify_header cur input = .error e) ∧
    (∀ v rest, (∀ b ∈ v, b < 128) → v.length = cur.length →
        2 ≤ (v.splitOn 46).length → 2 ≤ (cur.splitOn 46).length →
        (v.splitOn 46).getD 0 [] = (cur.splitOn 46).getD 0 [] →
        (v.splitOn 46).getD 1 [] = (cur.splitOn 46).getD 1 [] →
        verify_header cur (PREFIX ++ v ++ rest) = .ok v) := by
  have hok : ∀ input r, verify_header cur input = .ok r →
      PREFIX.isPrefixOf input = true ∧
      r = (input.take (PREFIX.length + cur.length)).drop PREFIX.length ∧
      (r.splitOn 46).getD 0 [] = (cur.splitOn 46).getD 0 [] ∧
      (r.splitOn 46).getD 1 [] = (cur.splitOn 46).getD 1 [] := by
    intro input r h
    simp only [verify_header] at h
    split_ifs at h with h1 h2 h3 h4 h5 h6
    all_goals
      first
        | exact Except.noConfusion h
        | (rw [Except.ok.injEq] at h
           subst h
           rcases not_or.mp h6 with ⟨he0, he1⟩
           refine ⟨?_, rfl, not_ne_iff.mp he0, not_ne_iff.mp he1⟩
           have hpre : PREFIX <+: input.take (PREFIX.length + cur.length) :=
             List.isPrefixOf_iff_prefix.mp h2
           exact List.isPrefixOf_iff_prefix.mpr
             (hpre.trans (List.take_prefix _ _)))
  refine ⟨hok, ?_, ?_, ?_⟩
  · intro input hpre
    cases hv : verify_header cur input with
    | error e => exact ⟨e, rfl⟩
    | ok r =>
      have := (hok input r hv).1
      have hpre' : PREFIX.isPrefixOf input = true := this
      rw [hpre] at hpre'
      cases hpre'
  · intro input hne
    cases hv : verify_header cur input with
    | error e => exact ⟨e, rfl⟩
    | ok r =>
      obtain ⟨_, hr, h0, h1⟩ := hok input r hv
      subst hr
      rcases hne with hne | hne
      · exact absurd h0 hne
      · exact absurd h1 hne
  · intro v rest hascii hvlen hv2 hc2 heq0 heq1
    have hnotlt : ¬ ((PREFIX ++ v ++ rest).length < PREFIX.length + cur.length) := by
      simp only [List.length_append]
      omega
    have htake : (PREFIX ++ v ++ rest).take (PREFIX.length + cur.length) =
        PREFIX ++ v := by
      rw [← hvlen, show PREFIX.length + v.length = (PREFIX ++ v).length from
        (List.length_append _ _).symm, List.take_left]
    have hdrop : (PREFIX ++ v).drop PREFIX.length = v := List.drop_left _ _
    have hpre : PREFIX.isPrefixOf (PREFIX ++ v) = true :=
      List.isPrefixOf_iff_prefix.mpr (List.prefix_append _ _)
    have hutf : utf8Valid v = true := utf8Valid_of_ascii hascii
    have hnot2 : ¬ ((v.splitOn 46).length < 2) := by omega
    have hnotc2 : ¬ ((cur.splitOn 46).length < 2) := by omega
    have hnotne :
        ¬ ((v.splitOn 46).getD 0 [] ≠ (cur.splitOn 46).getD 0 [] ∨
          (v.splitOn 46).getD 1 [] ≠ (cur.splitOn 46).getD 1 []) := by
      push_neg
      exact ⟨heq0, heq1⟩
    simp only [verify_header, if_neg hnotlt, htake, hdrop, hpre, if_true, hutf,
      if_neg hnot2, if_neg hnotc2, if_neg hnotne]

/-- Closed instance of C6: with running version bytes "00.01.01", an
archive header carrying version "00.01.02" (same major and minor,
different patch) is accepted and returns that version string. -/
theorem verify_header_witness :
    verify_header [48, 48, 46, 48, 49, 46, 48, 49]
        (PREFIX ++ [48, 48, 46, 48, 49, 46, 48, 50] ++ []) =
      .ok [48, 48, 46, 48, 49, 46, 48, 50] := by
  exact (verify_header_rejects_and_ignores_patch
      [48, 48, 46, 48, 49, 46, 48, 49]).2.2.2
    [48, 48, 46, 48, 49, 46, 48, 50] [] (by decide) (by decide) (by decide)
    (by decide) (by decide) (by decide)

theorem rebuildFileContent_error (mp : ChunkMap) (p : String)
    (hs : List Nat) (h : Nat) (hh : h ∈ hs) (habs : mp h = none) :
    rebuildFileContent mp p hs = .error (.MissingChunk p) := by
  induction hs with
  | nil => cases hh
  | cons h' rest ih =>
    cases hmp : mp h' with
    | none => simp [rebuildFileContent, hmp]
    | some d =>
      have hne : h ≠ h' := by
        intro he
        rw [he, hmp] at habs
        cases habs
      have hmem : h ∈ rest := by
        rcases List.mem_cons.mp hh with h1 | h2
        · exact absurd h1 hne
        · exact h2
      simp [rebuildFileContent, hmp, ih hmem]

theorem rebuild_files_error (mp : ChunkMap) (entries : List FileMeta)
    (e : FileMeta) (he : e ∈ entries) (err : AppError)
    (herr : rebuildFileContent mp e.path e.chunk_hashes = .error err) :
    ∃ err', rebuild_files mp entries = .error err' := by
  induction entries with
  | nil => cases he
  | cons e' rest ih =>
    cases hres : rebuildFileContent mp e'.path e'.chunk_hashes with
    | error err' => exact ⟨err', by simp [rebuild_files, hres]⟩
    | ok c =>
      have hmem : e ∈ rest := by
        rcases List.mem_cons.mp he with h1 | h2
        · subst h1
          rw [herr] at hres
          cases hres
        · exact h2
      obtain ⟨err', herr'⟩ := ih hmem
      exact ⟨err', by simp [rebuild_files, hres, herr']⟩

/-- C7: if a file table entry references a digest absent from the
decompressed chunk map, that file's reconstruction fails with
`MissingChunk` naming the file's relative path, and the whole `unpack`
call returns an error. -/
theorem unpack_missing_chunk (C : Codec) (A : Archive) (mp : ChunkMap)
    (e : FileMeta) (h : Nat)
    (hmp : read_chunks C A.chunkTable = .ok mp)
    (he : e ∈ A.fileTable) (hh : h ∈ e.chunk_hashes) (habs : mp h = none) :
    rebuildFileContent mp e.path e.chunk_hashes = .error (.MissingChunk e.path) ∧
    ∃ err, unpack C A = .error err := by
  have h1 := rebuildFileContent_error mp e.path e.chunk_hashes h hh habs
  obtain ⟨err, herr⟩ := rebuild_files_error mp A.fileTable e he _ h1
  exact ⟨h1, err, by simp only [unpack, hmp, herr]⟩

/-- Closed instance of C7: an archive with an empty chunk table but a file
entry referencing digest 42 fails with `MissingChunk "f"`. -/
theorem unpack_missing_chunk_witness :
    rebuildFileContent (fun _ => none) "f" [42] = .error (.MissingChunk "f") ∧
    ∃ err, unpack lenCodec ⟨0, [], [⟨"f", 3, [42]⟩]⟩ = .error err := by
  exact unpack_missing_chunk lenCodec ⟨0, [], [⟨"f", 3, [42]⟩]⟩ (fun _ => none)
    ⟨"f", 3, [42]⟩ 42 rfl (List.mem_singleton.mpr rfl)
    (List.mem_singleton.mpr rfl) rfl

theorem sumOrigSizes_foldl (ft : List FileMeta) (t : Nat) (ht : t < 2 ^ 64) :
    ft.foldl (fun acc e => (acc + e.orig_size) % 2 ^ 64) t =
      (t + (ft.map FileMeta.orig_size).sum) % 2 ^ 64 := by
  induction ft generalizing t with
  | nil =>
    simp only [List.foldl_nil, List.map_nil, List.sum_nil, Nat.add_zero,
      Nat.mod_eq_of_lt ht]
  | cons e rest ih =>
    have hlt : (t + e.orig_size) % 2 ^ 64 < 2 ^ 64 :=
      Nat.mod_lt _ (by norm_num)
    simp only [List.foldl_cons, List.map_cons, List.sum_cons, ih _ hlt]
    rw [Nat.mod_add_mod, Nat.add_assoc]

/-- C8: the summary's reduction percentage is 0 whenever the total
original size over all file entries is 0 (no division by zero), and
otherwise equals `(1 - archive_size / total_original_size) * 100`; the
reader's `f64` arithmetic is embedded as exact rational arithmetic.  The
hypothesis keeps the `u64` accumulation of the sizes from wrapping. -/
theorem get_summary_reduction_percentage (archive_size number_of_chunks : Nat)
    (ft : List FileMeta) (hsum : (ft.map FileMeta.orig_size).sum < 2 ^ 64) :
    (get_summary archive_size number_of_chunks ft).reduction_percentage =
      if (ft.map FileMeta.orig_size).sum = 0 then 0
      else (1 - (archive_size : ℚ) / ((ft.map FileMeta.orig_size).sum : ℚ)) * 100 := by
  have htot : sumOrigSizes ft = (ft.map FileMeta.orig_size).sum := by
    rw [sumOrigSizes, sumOrigSizes_foldl ft 0 (by norm_num), Nat.zero_add,
      Nat.mod_eq_of_lt hsum]
  simp only [get_summary, htot]
  by_cases h0 : (ft.map FileMeta.orig_size).sum = 0
  · simp [h0]
  · have hpos : 0 < (ft.map FileMeta.orig_size).sum := Nat.pos_of_ne_zero h0
    rw [if_pos hpos, if_neg h0]

/-- Closed instance of C8: a single 200-byte entry against a 50-byte
archive gives a 75 percent reduction, and an empty file table gives 0. -/
theorem get_summary_reduction_percentage_witness :
    (get_summary 50 1 [⟨"a", 200, []⟩]).reduction_percentage = 75 ∧
    (get_summary 50 0 []).reduction_percentage = 0 := by
  constructor
  · rw [get_summary_reduction_percentage 50 1 [⟨"a", 200, []⟩] (by norm_num)]
    norm_num
  · rw [get_summary_reduction_percentage 50 0 [] (by norm_num)]
    norm_num

/-- C9: when compression fails inside `ChunkStore::insert` for a digest
not yet a member, the call returns the compression error, and the store is
unchanged — the digest is not added, `len()` is unaffected, and the digest
is still absent, so a later insert of the same bytes is again a first
sight. -/
theorem insert_compression_failure_atomic (C : Codec) (s : ChunkStore)
    (chunk : List Nat) (hd : C.hash chunk ∉ s) (hc : C.compress chunk = none) :
    ChunkStore.insert C s chunk = (s, .error .Compression) ∧
    ChunkStore.len (ChunkStore.insert C s chunk).1 = ChunkStore.len s ∧
    C.hash chunk ∉ (ChunkStore.insert C s chunk).1 := by
  have h := insert_snd_fail C s chunk hd hc
  refine ⟨h, by rw [h], by rw [h]; exact hd⟩

/-- Closed instance of C9: a failing compressor leaves the store's
membership and length untouched. -/
theorem insert_compression_failure_atomic_witness :
    ChunkStore.insert failCodec [7] [1, 2] = ([7], .error .Compression) ∧
    ChunkStore.len (ChunkStore.insert failCodec [7] [1, 2]).1 =
      ChunkStore.len [7] ∧
    failCodec.hash [1, 2] ∉ (ChunkStore.insert failCodec [7] [1, 2]).1 := by
  exact insert_compression_failure_atomic failCodec [7] [1, 2] (by decide) rfl

theorem read_chunksLoop_congr (C : Codec) {l1 l2 : List ChunkMessage}
    (h : List.Forall₂ (fun m m' : ChunkMessage =>
        m.hash = m'.hash ∧ m.compressed_data = m'.compressed_data) l1 l2) :
    ∀ mp0, read_chunksLoop C mp0 l1 = read_chunksLoop C mp0 l2 := by
  induction h with
  | nil => intro mp0; rfl
  | @cons m m' t1 t2 hR htail ih =>
    intro mp0
    obtain ⟨h1, h2⟩ := hR
    simp only [read_chunksLoop, h1, h2]
    cases C.decompress m'.compressed_data EXPECTED_MAX_CHUNK_SIZE with
    | none => rfl
    | some d => exact ih _

theorem rebuild_files_congr (mp : ChunkMap) {l1 l2 : List FileMeta}
    (h : List.Forall₂ (fun e e' : FileMeta =>
        e.path = e'.path ∧ e.chunk_hashes = e'.chunk_hashes) l1 l2) :
    rebuild_files mp l1 = rebuild_files mp l2 := by
  induction h with
  | nil => rfl
  | @cons e e' t1 t2 hR htail ih =>
    obtain ⟨h1, h2⟩ := hR
    simp only [rebuild_files, h1, h2, ih]

/-- C10: the output of `unpack` does not depend on the chunk table's
original-length fields nor on the file table's original-size fields — two
archives identical except in those fields unpack to identical results,
because `read_chunks` reads and discards the original length and
`rebuild_files` reads and discards the original size. -/
theorem unpack_ignores_stored_sizes (C : Codec) (A B : Archive)
    (hct : List.Forall₂ (fun m m' : ChunkMessage =>
        m.hash = m'.hash ∧ m.compressed_data = m'.compressed_data)
      A.chunkTable B.chunkTable)
    (hft : List.Forall₂ (fun e e' : FileMeta =>
        e.path = e'.path ∧ e.chunk_hashes = e'.chunk_hashes)
      A.fileTable B.fileTable) :
    unpack C A = unpack C B := by
  simp only [unpack, read_chunks]
  rw [read_chunksLoop_congr C hct (fun _ => none)]
  cases read_chunksLoop C (fun _ => none) B.chunkTable with
  | error e => rfl
  | ok mp => exact rebuild_files_congr mp hft

/-- Closed instance of C10: two archives differing only in the stored
original-length and original-size fields unpack identically. -/
theorem unpack_ignores_stored_sizes_witness :
    unpack lenCodec ⟨1, [⟨2, [9, 9], 99⟩], [⟨"f", 77, [2]⟩]⟩ =
      unpack lenCodec ⟨1, [⟨2, [9, 9], 123⟩], [⟨"f", 55, [2]⟩]⟩ := by
  exact unpack_ignores_stored_sizes lenCodec
    ⟨1, [⟨2, [9, 9], 99⟩], [⟨"f", 77, [2]⟩]⟩
    ⟨1, [⟨2, [9, 9], 123⟩], [⟨"f", 55, [2]⟩]⟩
    (List.Forall₂.cons ⟨rfl, rfl⟩ List.Forall₂.nil)
    (List.Forall₂.cons ⟨rfl, rfl⟩ List.Forall₂.nil)

end Squish
